import Mathlib

/-!
Verification development for the Java shared-code generator
(`src/google/protobuf/compiler/java/shared_code_generator.cc`).

Bytes are modelled as natural numbers `< 256`; a C++ `std::string` holding
binary data is a `List Nat`.
-/

namespace SharedCodeGen

/-- Per-byte escaping performed by `absl::CEscape` (used at
`shared_code_generator.cc:160`): the six special characters get two-character
escapes, printable ASCII (0x20–0x7E) passes through, and everything else
becomes a backslash followed by exactly three octal digits
(`'0' + b/64`, `'0' + b%64/8`, `'0' + b%8`). -/
def escChar (b : Nat) : List Nat :=
  if b = 10 then [92, 110]
  else if b = 13 then [92, 114]
  else if b = 9 then [92, 116]
  else if b = 34 then [92, 34]
  else if b = 39 then [92, 39]
  else if b = 92 then [92, 92]
  else if 32 ≤ b ∧ b < 127 then [b]
  else [92, 48 + b / 64, 48 + b % 64 / 8, 48 + b % 8]

/-- `absl::CEscape` over a whole byte string: each byte is escaped in turn. -/
def cescape : List Nat → List Nat
  | [] => []
  | b :: t => escChar b ++ cescape t

/-- Modelled from the spec: the unescaping side of the round-trip law lives in
the Java compiler/runtime, not in this repository, so it is rendered here as
the parser inverting the literal grammar that `escChar` targets: a backslash
introduces either one of the six named escapes or exactly three octal digits,
a raw double quote (0x22) would terminate the literal early and is therefore a
parse failure, and any other byte stands for itself. -/
def cunescape : List Nat → Option (List Nat)
  | [] => some []
  | c :: t =>
    if c = 92 then
      match t with
      | [] => none
      | e :: t1 =>
        if e = 110 then (cunescape t1).map (fun l => 10 :: l)
        else if e = 114 then (cunescape t1).map (fun l => 13 :: l)
        else if e = 116 then (cunescape t1).map (fun l => 9 :: l)
        else if e = 34 then (cunescape t1).map (fun l => 34 :: l)
        else if e = 39 then (cunescape t1).map (fun l => 39 :: l)
        else if e = 92 then (cunescape t1).map (fun l => 92 :: l)
        else if 48 ≤ e ∧ e ≤ 55 then
          match t1 with
          | d2 :: d3 :: t2 =>
            if 48 ≤ d2 ∧ d2 ≤ 55 ∧ 48 ≤ d3 ∧ d3 ≤ 55 then
              (cunescape t2).map (fun l => ((e - 48) * 64 + (d2 - 48) * 8 + (d3 - 48)) :: l)
            else none
          | _ => none
        else none
    else if c = 34 then none
    else (cunescape t).map (fun l => c :: l)

/-- Scanner for the target literal grammar: walking the escaped text the way
the consuming lexer would, returns `true` exactly when an unescaped double
quote (0x22) occurs, i.e. when the emitted string literal would be terminated
early; a backslash consumes the following character. -/
def literalScan : List Nat → Bool
  | [] => false
  | c :: t =>
    if c = 34 then true
    else if c = 92 then
      match t with
      | [] => false
      | _ :: t1 => literalScan t1
    else literalScan t

/-- The chunking loop of `GenerateDescriptors`
(`shared_code_generator.cc:151-161`): `for (i = 0; i < file_data.size();
i += kBytesPerLine)` emits the escaped slice `file_data.substr(i, kBytesPerLine)`;
reindexed structurally, the slice at offset `i` is `take L` of `drop i`, so the
loop is the recursion below on the not-yet-consumed suffix. For empty data the
loop body never runs and no chunk is produced. The `L = 0` guard is a model
artifact (the C++ loop would not terminate there); every property below
assumes `1 ≤ L` as the spec does. -/
def chunksFrom (d : List Nat) (L : Nat) : List (List Nat) :=
  if hd : d = [] then []
  else if hL : L = 0 then []
  else d.take L :: chunksFrom (d.drop L) L
termination_by d.length
decreasing_by
  simp only [List.length_drop]
  have hlen : 0 < d.length := List.length_pos.mpr hd
  omega

/-- The group structure of the emitted array literal: the separator printed
before the chunk at byte offset `i > 0` is `",\n"` (a new array element, i.e. a
new group) exactly when `i % kBytesPerPart = 0`
(`shared_code_generator.cc:152-158`); since every offset is `j * L` for chunk
index `j` and `kBytesPerPart = L * G`, the boundary falls exactly when the
chunk index is a multiple of `G` (see `groupBoundary_iff` below), i.e. the
chunks are grouped `G` at a time in order. The `G = 0` guard is a model
artifact (`i % 0` in the C++ code); every property below assumes `1 ≤ G`. -/
def groupify (cs : List (List Nat)) (G : Nat) : List (List (List Nat)) :=
  if hc : cs = [] then []
  else if hG : G = 0 then []
  else cs.take G :: groupify (cs.drop G) G
termination_by cs.length
decreasing_by
  simp only [List.length_drop]
  have hlen : 0 < cs.length := List.length_pos.mpr hc
  omega

/-- The chunk encoder: split the data into slices of at most `L` bytes, escape
each slice with `cescape`, and group the escaped chunks `G` at a time into the
successive elements of the emitted array literal. -/
def encode (d : List Nat) (L G : Nat) : List (List (List Nat)) :=
  groupify ((chunksFrom d L).map cescape) G

/-- `kBytesPerLine` at `shared_code_generator.cc:145`. -/
def kBytesPerLine : Nat := 40

/-- `kLinesPerPart` at `shared_code_generator.cc:147`. -/
def kLinesPerPart : Nat := 400

/-- `kBytesPerPart` at `shared_code_generator.cc:150`. -/
def kBytesPerPart : Nat := kBytesPerLine * kLinesPerPart

/-- The payload decision of `GenerateDescriptors`
(`shared_code_generator.cc:131-139`): when `strip_nonfunctional_codegen` is
set the file proto is `Clear()`ed before `SerializeToString`. Modelled from
the spec: serializing the cleared/empty placeholder proto yields the empty
byte sequence (§3: redaction may "replace with an empty byte sequence
entirely"); serialization itself lives outside this file of the repository,
so the non-stripped payload is taken as the given byte sequence `fileBytes`. -/
def serializedPayload (strip : Bool) (fileBytes : List Nat) : List Nat :=
  if strip then [] else fileBytes

/-- The chunk-literal array emitted by `GenerateDescriptors` for a file whose
(stripped-retention) serialized bytes are `fileBytes`, with the source's fixed
limits. -/
def generateDescriptorData (strip : Bool) (fileBytes : List Nat) :
    List (List (List Nat)) :=
  encode (serializedPayload strip fileBytes) kBytesPerLine kLinesPerPart

/-- Effectful `Option`-valued map over a list, used to express decoding. -/
def mapMO (f : List Nat → Option (List Nat)) : List (List Nat) → Option (List (List Nat))
  | [] => some []
  | a :: l =>
    match f a, mapMO f l with
    | some b, some bs => some (b :: bs)
    | _, _ => none

/-- Unescape every chunk of one group and concatenate: the unescaped content
of one array element. -/
def decodeGroup (g : List (List Nat)) : Option (List Nat) :=
  (mapMO cunescape g).map List.flatten

/-- Option-valued map over groups. -/
def mapMG (f : List (List Nat) → Option (List Nat)) :
    List (List (List Nat)) → Option (List (List Nat))
  | [] => some []
  | a :: l =>
    match f a, mapMG f l with
    | some b, some bs => some (b :: bs)
    | _, _ => none

/-- Decode a whole chunk-literal array: unescape-and-concatenate each group,
then concatenate the groups in order. -/
def decodeAll (gs : List (List (List Nat))) : Option (List Nat) :=
  (mapMG decodeGroup gs).map List.flatten

/-- One dependency of the file, together with the results the external naming
services return for it: `name` is `file_->dependency(i)->name()`, `package`
is `FileJavaPackage(file_->dependency(i), true, options_)` and `classname` is
`name_resolver_->GetDescriptorClassName(file_->dependency(i))`
(`shared_code_generator.cc:170-173`). -/
structure DepInfo where
  name : String
  package : String
  classname : String
deriving DecidableEq, Repr

/-- The fully-qualified holder-type identifier built at
`shared_code_generator.cc:174-179`: the class name alone when the package is
empty, otherwise `package ++ "." ++ classname`. -/
def fullName (dep : DepInfo) : String :=
  if dep.package = "" then dep.classname
  else dep.package ++ "." ++ dep.classname

/-- The dependency-collection loop (`shared_code_generator.cc:168-181`):
`push_back(make_pair(filename, full_name))` for `i = 0 .. dependency_count-1`
in order. -/
def collectDependencies : List DepInfo → List (String × String)
  | [] => []
  | dep :: rest => (dep.name, fullName dep) :: collectDependencies rest

/-- The dependency-printing loop (`shared_code_generator.cc:192-196`): one
`"      $dependency$.getDescriptor(),\n"` line per collected entry, in index
order. -/
def depLoop : List (String × String) → List String
  | [] => []
  | p :: rest => ("      " ++ p.2 ++ ".getDescriptor(),\n") :: depLoop rest

/-- The reconstruction-call emission (`shared_code_generator.cc:185-199`): the
header naming `internalBuildGeneratedFileFrom(descriptorData,`, then — only
when `options_.opensource_runtime` holds — the dependency-array opener and one
line per dependency, and finally the closing `"    \x7d);"`. -/
def reconstructionCall (opensourceRuntime : Bool) (deps : List DepInfo) :
    List String :=
  ["descriptor = com.google.protobuf.Descriptors.FileDescriptor\n  .internalBuildGeneratedFileFrom(descriptorData,\n"]
    ++ (if opensourceRuntime then
          "    new com.google.protobuf.Descriptors.FileDescriptor[] \x7b\n"
            :: depLoop (collectDependencies deps)
        else [])
    ++ ["    \x7d);\n"]

/-- The output-visible state touched by `SharedCodeGenerator::Generate`: the
two caller-owned vectors and, for the generation side effects, the list of
paths opened through the context and the pieces printed to the stream. -/
structure GenOutputs where
  file_list : List String
  annotation_file_list : List String
  opened : List String
  printed : List String
deriving DecidableEq, Repr

/-- `SharedCodeGenerator::Generate` (`shared_code_generator.cc:41-118`).
The whole body is guarded by `HasDescriptorMethods(file_, options_.enforce_lite)`
— an external helper, passed in here as the boolean `hasDescriptorMethods` —
and when it holds the function pushes the descriptor-holder file name, opens
it, prints the header, the optional version comment, the optional package
line, the class skeleton around the descriptor block (`descriptorBody`, the
`GenerateDescriptors` output) and the version validator, and when
`annotate_code` is set additionally opens the `.pb.meta` sidecar and pushes it
onto `annotation_file_list`. When the guard fails, nothing at all happens. -/
def generate (hasDescriptorMethods annotateCode opensourceRuntime : Bool)
    (packageDir classname sourceName javaPackage versionString : String)
    (annotationDecl descriptorBody versionValidator : List String)
    (st : GenOutputs) : GenOutputs :=
  if hasDescriptorMethods then
    let filename := packageDir ++ classname ++ ".java"
    let infoFullPath := filename ++ ".pb.meta"
    { file_list := st.file_list ++ [filename]
      annotation_file_list :=
        st.annotation_file_list ++ (if annotateCode then [infoFullPath] else [])
      opened := st.opened ++ [filename]
        ++ (if annotateCode then [infoFullPath] else [])
      printed := st.printed
        ++ ["// Generated by the protocol buffer compiler.  DO NOT EDIT!\n// NO CHECKED-IN PROTOBUF GENCODE\n// source: " ++ sourceName ++ "\n"]
        ++ (if opensourceRuntime then
              ["// Protobuf Java Version: " ++ versionString ++ "\n"]
            else [])
        ++ ["\n"]
        ++ (if javaPackage = "" then []
            else ["package " ++ javaPackage ++ ";\n\n"])
        ++ annotationDecl
        ++ ["public final class " ++ classname ++ " \x7b\n  /* This variable is to be called by generated code only. It returns\n  * an incomplete descriptor for internal use only. */\n  public static com.google.protobuf.Descriptors.FileDescriptor\n      descriptor;\n"]
        ++ ["  static \x7b\n"]
        ++ descriptorBody
        ++ versionValidator
        ++ ["  \x7d\n\x7d\n"] }
  else st

theorem cunescape_escChar (b : Nat) (hb : b < 256) (rest : List Nat) :
    cunescape (escChar b ++ rest) = (cunescape rest).map (fun l => b :: l) := by
  by_cases h10 : b = 10
  · subst h10
    rw [show escChar 10 ++ rest = 92 :: 110 :: rest from rfl, cunescape.eq_def]
    simp
  by_cases h13 : b = 13
  · subst h13
    rw [show escChar 13 ++ rest = 92 :: 114 :: rest from rfl, cunescape.eq_def]
    simp
  by_cases h9 : b = 9
  · subst h9
    rw [show escChar 9 ++ rest = 92 :: 116 :: rest from rfl, cunescape.eq_def]
    simp
  by_cases h34 : b = 34
  · subst h34
    rw [show escChar 34 ++ rest = 92 :: 34 :: rest from rfl, cunescape.eq_def]
    simp
  by_cases h39 : b = 39
  · subst h39
    rw [show escChar 39 ++ rest = 92 :: 39 :: rest from rfl, cunescape.eq_def]
    simp
  by_cases h92 : b = 92
  · subst h92
    rw [show escChar 92 ++ rest = 92 :: 92 :: rest from rfl, cunescape.eq_def]
    simp
  by_cases hpr : 32 ≤ b ∧ b < 127
  · have hesc : escChar b = [b] := by
      simp only [escChar, h10, h13, h9, h34, h39, h92, hpr, if_false, if_true]
      simp
    rw [hesc, List.cons_append, List.nil_append, cunescape.eq_def]
    simp [h92, h34]
  · have hesc : escChar b = [92, 48 + b / 64, 48 + b % 64 / 8, 48 + b % 8] := by
      simp only [escChar, h10, h13, h9, h34, h39, h92, hpr, if_false, if_true]
    have hd1 : 48 + b / 64 ≠ 110 := by omega
    have hd1r : 48 + b / 64 ≠ 114 := by omega
    have hd1t : 48 + b / 64 ≠ 116 := by omega
    have hd1q : 48 + b / 64 ≠ 34 := by omega
    have hd1a : 48 + b / 64 ≠ 39 := by omega
    have hd1b : 48 + b / 64 ≠ 92 := by omega
    have hoct1 : 48 ≤ 48 + b / 64 := by omega
    have hoct2 : 48 + b / 64 ≤ 55 := by omega
    have hd2a : 48 ≤ 48 + b % 64 / 8 := by omega
    have hd2b : 48 + b % 64 / 8 ≤ 55 := by omega
    have hd3a : 48 ≤ 48 + b % 8 := by omega
    have hd3b : 48 + b % 8 ≤ 55 := by omega
    rw [hesc]
    rw [show ([92, 48 + b / 64, 48 + b % 64 / 8, 48 + b % 8] : List Nat) ++ rest =
      92 :: (48 + b / 64) :: (48 + b % 64 / 8) :: (48 + b % 8) :: rest from rfl]
    rw [cunescape.eq_def]
    simp only [if_pos rfl, hd1, hd1r, hd1t, hd1q, hd1a, hd1b, if_false,
      hoct1, hoct2, hd2a, hd2b, hd3a, hd3b, and_self, if_true, if_pos, and_true]
    have hval : b / 64 * 64 + b % 64 / 8 * 8 + b % 8 = b := by omega
    simp [hval]

/-- The escape round-trip law for whole byte strings. -/
theorem cunescape_cescape (s : List Nat) (hs : ∀ b ∈ s, b < 256) :
    cunescape (cescape s) = some s := by
  induction s with
  | nil => rfl
  | cons b t ih =>
      have hb : b < 256 := hs b (List.mem_cons_self b t)
      have ht : ∀ x ∈ t, x < 256 := fun x hx => hs x (List.mem_cons_of_mem b hx)
      rw [cescape, cunescape_escChar b hb, ih ht]
      rfl

theorem chunksFrom_nil (L : Nat) : chunksFrom [] L = [] := by
  rw [chunksFrom]
  simp

theorem chunksFrom_zero (d : List Nat) : chunksFrom d 0 = [] := by
  rw [chunksFrom]
  simp

theorem chunksFrom_cons (d : List Nat) (L : Nat) (hd : d ≠ []) (hL : L ≠ 0) :
    chunksFrom d L = d.take L :: chunksFrom (d.drop L) L := by
  rw [chunksFrom]
  simp [hd, hL]

theorem chunksFrom_ne_nil (d : List Nat) (L : Nat) (hd : d ≠ []) (hL : L ≠ 0) :
    chunksFrom d L ≠ [] := by
  rw [chunksFrom_cons d L hd hL]
  simp

theorem chunksFrom_flatten (L : Nat) (hL : 1 ≤ L) (d : List Nat) :
    (chunksFrom d L).flatten = d := by
  by_cases hd : d = []
  · subst hd
    simp [chunksFrom_nil]
  · rw [chunksFrom_cons d L hd (by omega), List.flatten_cons,
      chunksFrom_flatten L hL (d.drop L), List.take_append_drop]
termination_by d.length
decreasing_by
  simp only [List.length_drop]
  have hlen : 0 < d.length := List.length_pos.mpr hd
  omega

theorem chunksFrom_mem_length_le (L : Nat) (d : List Nat) :
    ∀ c ∈ chunksFrom d L, c.length ≤ L := by
  intro c hc
  by_cases hd : d = []
  · subst hd
    simp [chunksFrom_nil] at hc
  by_cases hL : L = 0
  · subst hL
    simp [chunksFrom_zero] at hc
  rw [chunksFrom_cons d L hd hL] at hc
  rcases List.mem_cons.mp hc with h | h
  · subst h
    simp [List.length_take]
  · exact chunksFrom_mem_length_le L (d.drop L) c h
termination_by d.length
decreasing_by
  simp only [List.length_drop]
  have hlen : 0 < d.length := List.length_pos.mpr hd
  omega

theorem chunksFrom_mem_subset (L : Nat) (d : List Nat) :
    ∀ c ∈ chunksFrom d L, ∀ b ∈ c, b ∈ d := by
  intro c hc b hb
  by_cases hd : d = []
  · subst hd
    simp [chunksFrom_nil] at hc
  by_cases hL : L = 0
  · subst hL
    simp [chunksFrom_zero] at hc
  rw [chunksFrom_cons d L hd hL] at hc
  rcases List.mem_cons.mp hc with h | h
  · subst h
    exact List.mem_of_mem_take hb
  · exact List.mem_of_mem_drop (chunksFrom_mem_subset L (d.drop L) c h b hb)
termination_by d.length
decreasing_by
  simp only [List.length_drop]
  have hlen : 0 < d.length := List.length_pos.mpr hd
  omega

theorem chunksFrom_dropLast_length (L : Nat) (hL : 1 ≤ L) (d : List Nat) :
    ∀ c ∈ (chunksFrom d L).dropLast, c.length = L := by
  intro c hc
  by_cases hd : d = []
  · subst hd
    simp [chunksFrom_nil] at hc
  rw [chunksFrom_cons d L hd (by omega)] at hc
  by_cases hrest : chunksFrom (d.drop L) L = []
  · rw [hrest] at hc
    simp at hc
  · rw [List.dropLast_cons_of_ne_nil hrest] at hc
    rcases List.mem_cons.mp hc with h | h
    · subst h
      have hdrop : d.drop L ≠ [] := by
        intro hnil
        exact hrest (by rw [hnil, chunksFrom_nil])
      have hlen : L < d.length := by
        have := List.length_pos.mpr hdrop
        simp only [List.length_drop] at this
        omega
      simp [List.length_take]
      omega
    · exact chunksFrom_dropLast_length L hL (d.drop L) c h
termination_by d.length
decreasing_by
  simp only [List.length_drop]
  have hlen : 0 < d.length := List.length_pos.mpr hd
  omega

theorem groupify_nil (G : Nat) : groupify [] G = [] := by
  rw [groupify]
  simp

theorem groupify_zero (cs : List (List Nat)) : groupify cs 0 = [] := by
  rw [groupify]
  simp

theorem groupify_cons (cs : List (List Nat)) (G : Nat) (hc : cs ≠ []) (hG : G ≠ 0) :
    groupify cs G = cs.take G :: groupify (cs.drop G) G := by
  rw [groupify]
  simp [hc, hG]

theorem groupify_ne_nil (cs : List (List Nat)) (G : Nat) (hc : cs ≠ []) (hG : G ≠ 0) :
    groupify cs G ≠ [] := by
  rw [groupify_cons cs G hc hG]
  simp

theorem groupify_mem_subset (G : Nat) (cs : List (List Nat)) :
    ∀ g ∈ groupify cs G, ∀ x ∈ g, x ∈ cs := by
  intro g hg x hx
  by_cases hc : cs = []
  · subst hc
    simp [groupify_nil] at hg
  by_cases hG : G = 0
  · subst hG
    simp [groupify_zero] at hg
  rw [groupify_cons cs G hc hG] at hg
  rcases List.mem_cons.mp hg with h | h
  · subst h
    exact List.mem_of_mem_take hx
  · exact List.mem_of_mem_drop (groupify_mem_subset G (cs.drop G) g h x hx)
termination_by cs.length
decreasing_by
  simp only [List.length_drop]
  have hlen : 0 < cs.length := List.length_pos.mpr hc
  omega

theorem groupify_mem_length_le (G : Nat) (cs : List (List Nat)) :
    ∀ g ∈ groupify cs G, g.length ≤ G := by
  intro g hg
  by_cases hc : cs = []
  · subst hc
    simp [groupify_nil] at hg
  by_cases hG : G = 0
  · subst hG
    simp [groupify_zero] at hg
  rw [groupify_cons cs G hc hG] at hg
  rcases List.mem_cons.mp hg with h | h
  · subst h
    simp [List.length_take]
  · exact groupify_mem_length_le G (cs.drop G) g h
termination_by cs.length
decreasing_by
  simp only [List.length_drop]
  have hlen : 0 < cs.length := List.length_pos.mpr hc
  omega

theorem groupify_dropLast_length (G : Nat) (hG : 1 ≤ G) (cs : List (List Nat)) :
    ∀ g ∈ (groupify cs G).dropLast, g.length = G := by
  intro g hg
  by_cases hc : cs = []
  · subst hc
    simp [groupify_nil] at hg
  rw [groupify_cons cs G hc (by omega)] at hg
  by_cases hrest : groupify (cs.drop G) G = []
  · rw [hrest] at hg
    simp at hg
  · rw [List.dropLast_cons_of_ne_nil hrest] at hg
    rcases List.mem_cons.mp hg with h | h
    · subst h
      have hdrop : cs.drop G ≠ [] := by
        intro hnil
        exact hrest (by rw [hnil, groupify_nil])
      have hlen : G < cs.length := by
        have := List.length_pos.mpr hdrop
        simp only [List.length_drop] at this
        omega
      simp [List.length_take]
      omega
    · exact groupify_dropLast_length G hG (cs.drop G) g h
termination_by cs.length
decreasing_by
  simp only [List.length_drop]
  have hlen : 0 < cs.length := List.length_pos.mpr hc
  omega

theorem groupify_length (G : Nat) (hG : 1 ≤ G) (cs : List (List Nat)) :
    (groupify cs G).length = (cs.length + G - 1) / G := by
  by_cases hc : cs = []
  · subst hc
    simp [groupify_nil]
    rw [Nat.div_eq_of_lt (by omega)]
  · rw [groupify_cons cs G hc (by omega), List.length_cons,
      groupify_length G hG (cs.drop G), List.length_drop]
    have hpos : 0 < cs.length := List.length_pos.mpr hc
    rcases le_or_lt G cs.length with h | h
    · have e1 : cs.length - G + G - 1 = cs.length - 1 := by omega
      have e2 : cs.length + G - 1 = cs.length - 1 + G := by omega
      rw [e1, e2, Nat.add_div_right _ (by omega : 0 < G)]
    · have e1 : cs.length - G = 0 := by omega
      have e2 : cs.length + G - 1 = cs.length - 1 + G := by omega
      rw [e1, e2, Nat.add_div_right _ (by omega : 0 < G),
        Nat.div_eq_of_lt (by omega : 0 + G - 1 < G),
        Nat.div_eq_of_lt (by omega : cs.length - 1 < G)]
termination_by cs.length
decreasing_by
  simp only [List.length_drop]
  have hlen : 0 < cs.length := List.length_pos.mpr hc
  omega

theorem mapMO_cescape (cs : List (List Nat)) (h : ∀ c ∈ cs, ∀ b ∈ c, b < 256) :
    mapMO cunescape (cs.map cescape) = some cs := by
  induction cs with
  | nil => rfl
  | cons c t ih =>
      have hc : ∀ b ∈ c, b < 256 := h c (List.mem_cons_self c t)
      have ht : ∀ x ∈ t, ∀ b ∈ x, b < 256 :=
        fun x hx => h x (List.mem_cons_of_mem c hx)
      rw [List.map_cons, mapMO, cunescape_cescape c hc, ih ht]

theorem decodeGroup_cescape (cs : List (List Nat))
    (h : ∀ c ∈ cs, ∀ b ∈ c, b < 256) :
    decodeGroup (cs.map cescape) = some cs.flatten := by
  rw [decodeGroup, mapMO_cescape cs h]
  rfl

theorem decodeAll_groupify (G : Nat) (hG : 1 ≤ G) (cs : List (List Nat))
    (h : ∀ c ∈ cs, ∀ b ∈ c, b < 256) :
    decodeAll (groupify (cs.map cescape) G) = some cs.flatten := by
  by_cases hc : cs = []
  · subst hc
    simp [groupify_nil, decodeAll, mapMG]
  · have hmc : cs.map cescape ≠ [] := by simp [hc]
    rw [groupify_cons _ G hmc (by omega), ← List.map_take, ← List.map_drop]
    have hhead := decodeGroup_cescape (cs.take G)
      (fun c hc2 => h c (List.mem_of_mem_take hc2))
    have ih := decodeAll_groupify G hG (cs.drop G)
      (fun c hc2 => h c (List.mem_of_mem_drop hc2))
    rcases hys : mapMG decodeGroup (groupify ((cs.drop G).map cescape) G) with _ | ys
    · rw [decodeAll, hys] at ih
      simp at ih
    · rw [decodeAll, hys] at ih
      have hflat : ys.flatten = (cs.drop G).flatten := by
        simpa using ih
      rw [decodeAll, mapMG, hhead, hys]
      have hfin : (cs.take G).flatten ++ ys.flatten = cs.flatten := by
        rw [hflat, ← List.flatten_append (cs.take G) (cs.drop G),
          List.take_append_drop]
      simp [hfin]
termination_by cs.length
decreasing_by
  simp only [List.length_drop]
  have hlen : 0 < cs.length := List.length_pos.mpr hc
  omega

theorem chunksFrom_take (L : Nat) (hL : 1 ≤ L) (n : Nat) :
    ∀ d : List Nat, (chunksFrom d L).take n = chunksFrom (d.take (L * n)) L := by
  induction n with
  | zero => intro d; simp [chunksFrom_nil]
  | succ n ih =>
      intro d
      by_cases hd : d = []
      · subst hd
        simp [chunksFrom_nil]
      · rw [chunksFrom_cons d L hd (by omega), List.take_succ_cons, ih (d.drop L)]
        have htne : d.take (L * (n + 1)) ≠ [] := by
          simp [List.take_eq_nil_iff, hd]
          omega
        rw [chunksFrom_cons (d.take (L * (n + 1))) L htne (by omega)]
        have e1 : (d.take (L * (n + 1))).take L = d.take L := by
          rw [List.take_take]
          have : min L (L * (n + 1)) = L := by
            apply min_eq_left
            have : L * (n + 1) = L * n + L := by ring
            omega
          rw [this]
        have e2 : (d.take (L * (n + 1))).drop L = (d.drop L).take (L * n) := by
          rw [List.drop_take]
          have : L * (n + 1) - L = L * n := by
            have : L * (n + 1) = L * n + L := by ring
            omega
          rw [this]
        rw [e1, e2]

theorem chunksFrom_drop (L : Nat) (hL : 1 ≤ L) (n : Nat) :
    ∀ d : List Nat, (chunksFrom d L).drop n = chunksFrom (d.drop (L * n)) L := by
  induction n with
  | zero => intro d; simp
  | succ n ih =>
      intro d
      by_cases hd : d = []
      · subst hd
        simp [chunksFrom_nil]
      · rw [chunksFrom_cons d L hd (by omega), List.drop_succ_cons, ih (d.drop L),
          List.drop_drop]
        have : L + L * n = L * (n + 1) := by ring
        rw [this]

theorem encode_nil (L G : Nat) : encode [] L G = [] := by
  rw [encode, chunksFrom_nil]
  simp [groupify_nil]

theorem encode_unfold (d : List Nat) (L G : Nat) (hd : d ≠ []) (hL : 1 ≤ L)
    (hG : 1 ≤ G) :
    encode d L G =
      (chunksFrom (d.take (L * G)) L).map cescape :: encode (d.drop (L * G)) L G := by
  rw [encode]
  have hmc : (chunksFrom d L).map cescape ≠ [] := by
    simp [chunksFrom_ne_nil d L hd (by omega)]
  rw [groupify_cons _ G hmc (by omega), ← List.map_take, ← List.map_drop,
    chunksFrom_take L hL G d, chunksFrom_drop L hL G d, encode]

theorem literalScan_escChar (b : Nat) (hb : b < 256) (rest : List Nat) :
    literalScan (escChar b ++ rest) = literalScan rest := by
  by_cases h10 : b = 10
  · subst h10
    rw [show escChar 10 ++ rest = 92 :: 110 :: rest from rfl, literalScan.eq_def]
    simp
  by_cases h13 : b = 13
  · subst h13
    rw [show escChar 13 ++ rest = 92 :: 114 :: rest from rfl, literalScan.eq_def]
    simp
  by_cases h9 : b = 9
  · subst h9
    rw [show escChar 9 ++ rest = 92 :: 116 :: rest from rfl, literalScan.eq_def]
    simp
  by_cases h34 : b = 34
  · subst h34
    rw [show escChar 34 ++ rest = 92 :: 34 :: rest from rfl, literalScan.eq_def]
    simp
  by_cases h39 : b = 39
  · subst h39
    rw [show escChar 39 ++ rest = 92 :: 39 :: rest from rfl, literalScan.eq_def]
    simp
  by_cases h92 : b = 92
  · subst h92
    rw [show escChar 92 ++ rest = 92 :: 92 :: rest from rfl, literalScan.eq_def]
    simp
  by_cases hpr : 32 ≤ b ∧ b < 127
  · have hesc : escChar b = [b] := by
      simp only [escChar, h10, h13, h9, h34, h39, h92, hpr, if_false, if_true]
      simp
    rw [hesc, List.cons_append, List.nil_append, literalScan.eq_def]
    simp [h34, h92]
  · have hesc : escChar b = [92, 48 + b / 64, 48 + b % 64 / 8, 48 + b % 8] := by
      simp only [escChar, h10, h13, h9, h34, h39, h92, hpr, if_false, if_true]
    have hd2q : 48 + b % 64 / 8 ≠ 34 := by omega
    have hd2b : 48 + b % 64 / 8 ≠ 92 := by omega
    have hd3q : 48 + b % 8 ≠ 34 := by omega
    have hd3b : 48 + b % 8 ≠ 92 := by omega
    rw [hesc]
    rw [show ([92, 48 + b / 64, 48 + b % 64 / 8, 48 + b % 8] : List Nat) ++ rest =
      92 :: (48 + b / 64) :: (48 + b % 64 / 8) :: (48 + b % 8) :: rest from rfl]
    rw [literalScan.eq_def]
    simp
    rw [literalScan.eq_def]
    simp only [hd2q, hd2b, if_false]
    rw [literalScan.eq_def]
    simp only [hd3q, hd3b, if_false]

theorem literalScan_cescape (s : List Nat) (hs : ∀ b ∈ s, b < 256) :
    literalScan (cescape s) = false := by
  induction s with
  | nil => rfl
  | cons b t ih =>
      have hb : b < 256 := hs b (List.mem_cons_self b t)
      have ht : ∀ x ∈ t, x < 256 := fun x hx => hs x (List.mem_cons_of_mem b hx)
      rw [cescape, literalScan_escChar b hb, ih ht]

/-- Fidelity of the grouping model: the source starts a new array element at
byte offset `i` exactly when `i % (L * G) = 0` (`shared_code_generator.cc:153`);
every offset the loop visits is `j * L` for the chunk index `j`, and for those
offsets the condition is exactly that `j` is a multiple of `G` — grouping the
chunks `G` at a time, as `groupify` does. -/
theorem groupBoundary_iff (L G j : Nat) (hL : 1 ≤ L) :
    j * L % (L * G) = 0 ↔ j % G = 0 := by
  rw [mul_comm j L, Nat.mul_mod_mul_left]
  constructor
  · intro h
    rcases Nat.mul_eq_zero.mp h with h0 | h0
    · omega
    · exact h0
  · intro h
    rw [h, Nat.mul_zero]

theorem chunksFrom_length (L : Nat) (hL : 1 ≤ L) (d : List Nat) :
    (chunksFrom d L).length = (d.length + L - 1) / L := by
  by_cases hd : d = []
  · subst hd
    simp [chunksFrom_nil]
    rw [Nat.div_eq_of_lt (by omega)]
  · rw [chunksFrom_cons d L hd (by omega), List.length_cons,
      chunksFrom_length L hL (d.drop L), List.length_drop]
    have hpos : 0 < d.length := List.length_pos.mpr hd
    rcases le_or_lt L d.length with h | h
    · have e1 : d.length - L + L - 1 = d.length - 1 := by omega
      have e2 : d.length + L - 1 = d.length - 1 + L := by omega
      rw [e1, e2, Nat.add_div_right _ (by omega : 0 < L)]
    · have e1 : d.length - L = 0 := by omega
      have e2 : d.length + L - 1 = d.length - 1 + L := by omega
      rw [e1, e2, Nat.add_div_right _ (by omega : 0 < L),
        Nat.div_eq_of_lt (by omega : 0 + L - 1 < L),
        Nat.div_eq_of_lt (by omega : d.length - 1 < L)]
termination_by d.length
decreasing_by
  simp only [List.length_drop]
  have hlen : 0 < d.length := List.length_pos.mpr hd
  omega

theorem encode_dropLast_bytes (L G : Nat) (hL : 1 ≤ L) (hG : 1 ≤ G)
    (d : List Nat) (hb : ∀ b ∈ d, b < 256) :
    ∀ g ∈ (encode d L G).dropLast,
      ∃ u, decodeGroup g = some u ∧ u.length = L * G := by
  intro g hg
  by_cases hd : d = []
  · subst hd
    rw [encode_nil] at hg
    simp at hg
  · rw [encode_unfold d L G hd hL hG] at hg
    by_cases hrest : encode (d.drop (L * G)) L G = []
    · rw [hrest] at hg
      simp at hg
    · rw [List.dropLast_cons_of_ne_nil hrest] at hg
      rcases List.mem_cons.mp hg with h | h
      · subst h
        have hbytes : ∀ c ∈ chunksFrom (d.take (L * G)) L, ∀ b ∈ c, b < 256 :=
          fun c hc b hbc =>
            hb b (List.mem_of_mem_take
              (chunksFrom_mem_subset L (d.take (L * G)) c hc b hbc))
        refine ⟨d.take (L * G), ?_, ?_⟩
        · rw [decodeGroup_cescape (chunksFrom (d.take (L * G)) L) hbytes,
            chunksFrom_flatten L hL (d.take (L * G))]
        · have hdrop : d.drop (L * G) ≠ [] := by
            intro hnil
            exact hrest (by rw [hnil, encode_nil])
          have hlen : L * G < d.length := by
            have := List.length_pos.mpr hdrop
            simp only [List.length_drop] at this
            omega
          simp [List.length_take]
          omega
      · exact encode_dropLast_bytes L G hL hG (d.drop (L * G))
          (fun b hbm => hb b (List.mem_of_mem_drop hbm)) g h
termination_by d.length
decreasing_by
  simp only [List.length_drop]
  have hlen : 0 < d.length := List.length_pos.mpr hd
  have hLG : 1 ≤ L * G := Nat.one_le_iff_ne_zero.mpr (by positivity)
  omega

theorem depLoop_collect (deps : List DepInfo) :
    depLoop (collectDependencies deps) =
      deps.map (fun dep => "      " ++ fullName dep ++ ".getDescriptor(),\n") := by
  induction deps with
  | nil => rfl
  | cons dep rest ih => rw [collectDependencies, depLoop, ih, List.map_cons]

/-- Claim C1: for every byte sequence `d` and limits `L ≥ 1`, `G ≥ 1`,
concatenating the chunks of all ChunkGroups produced by the chunk encoder in
order and unescaping the result reproduces `d` exactly; moreover each group
decodes to a byte list and those per-group contents, concatenated in order,
partition `d` with no gaps or overlaps. -/
theorem c1_encode_roundtrip_partition (d : List Nat) (L G : Nat) (hL : 1 ≤ L)
    (hG : 1 ≤ G) (hb : ∀ b ∈ d, b < 256) :
    decodeAll (encode d L G) = some d ∧
      ∃ pieces, mapMG decodeGroup (encode d L G) = some pieces ∧
        pieces.flatten = d := by
  have hchunks : ∀ c ∈ chunksFrom d L, ∀ b ∈ c, b < 256 :=
    fun c hc b hbc => hb b (chunksFrom_mem_subset L d c hc b hbc)
  have h1 : decodeAll (encode d L G) = some d := by
    rw [encode, decodeAll_groupify G hG (chunksFrom d L) hchunks,
      chunksFrom_flatten L hL d]
  refine ⟨h1, ?_⟩
  rcases hys : mapMG decodeGroup (encode d L G) with _ | ys
  · rw [decodeAll, hys] at h1
    simp at h1
  · refine ⟨ys, rfl, ?_⟩
    rw [decodeAll, hys] at h1
    simpa using h1

/-- Witness for C1 at the concrete input `d = [0, 34, 92, 200, 10]`,
`L = 2`, `G = 2`. -/
theorem c1_encode_roundtrip_partition_witness :
    (1 ≤ 2 ∧ (∀ b ∈ [0, 34, 92, 200, 10], b < 256)) ∧
      (decodeAll (encode [0, 34, 92, 200, 10] 2 2) = some [0, 34, 92, 200, 10] ∧
        ∃ pieces, mapMG decodeGroup (encode [0, 34, 92, 200, 10] 2 2) = some pieces ∧
          pieces.flatten = [0, 34, 92, 200, 10]) :=
  ⟨⟨by decide, by decide⟩,
    c1_encode_roundtrip_partition [0, 34, 92, 200, 10] 2 2 (by decide) (by decide)
      (by decide)⟩

/-- Claim C2 counterexample: at the code's own limits (`kBytesPerLine = 40`,
`kLinesPerPart = 400`) the encoder applied to the empty byte sequence produces
the empty array — zero groups and zero chunks — not one group with one empty
chunk: the loop `for (i = 0; i < file_data.size(); i += kBytesPerLine)` at
`shared_code_generator.cc:151` never executes its body when `file_data` is
empty. -/
theorem c2_counterexample :
    encode ([] : List Nat) 40 400 = [] ∧
      (encode ([] : List Nat) 40 400).length ≠ 1 := by
  constructor
  · exact encode_nil 40 400
  · rw [encode_nil]
    simp

/-- Claim C2 (amended): for input data of length 0 and any limits, the chunk
encoder produces no chunks at all — the emitted array literal has zero
elements, not one. -/
theorem c2_amended_empty_input (L G : Nat) : encode ([] : List Nat) L G = [] :=
  encode_nil L G

/-- Claim C3 counterexample: with the strip-nonfunctional-content option set
and a nonempty schema serialization `[1, 2, 3]`, the emitted chunk-literal
array is the empty array (zero groups), not the claimed one-group one-chunk
result. -/
theorem c3_counterexample :
    generateDescriptorData true [1, 2, 3] = [] ∧
      (generateDescriptorData true [1, 2, 3]).length ≠ 1 := by
  constructor
  · rw [generateDescriptorData, show serializedPayload true [1, 2, 3] = [] from rfl,
      encode_nil]
  · rw [generateDescriptorData, show serializedPayload true [1, 2, 3] = [] from rfl,
      encode_nil]
    simp

/-- Claim C3 (amended): when the strip-nonfunctional-content option is set the
emitted chunk-literal array is always the empty array (zero groups, zero
chunks), regardless of the original schema file's content or size. -/
theorem c3_amended_strip_empty (fileBytes : List Nat) :
    generateDescriptorData true fileBytes = [] := by
  rw [generateDescriptorData, show serializedPayload true fileBytes = [] from rfl,
    encode_nil]

/-- Claim C4: every chunk's unescaped length is at most `L` — with every chunk
except possibly the final one of length exactly `L` — and every group holds at
most `G` chunks, with every group except possibly the final one holding
exactly `G`. -/
theorem c4_chunk_and_group_bounds (d : List Nat) (L G : Nat) (hL : 1 ≤ L)
    (hG : 1 ≤ G) (hb : ∀ b ∈ d, b < 256) :
    (∀ g ∈ encode d L G, g.length ≤ G) ∧
      (∀ g ∈ (encode d L G).dropLast, g.length = G) ∧
      (∀ g ∈ encode d L G, ∀ c ∈ g, ∃ u, cunescape c = some u ∧ u.length ≤ L) ∧
      (∀ c ∈ (chunksFrom d L).dropLast, c.length = L) := by
  refine ⟨?_, ?_, ?_, chunksFrom_dropLast_length L hL d⟩
  · intro g hg
    rw [encode] at hg
    exact groupify_mem_length_le G _ g hg
  · intro g hg
    rw [encode] at hg
    exact groupify_dropLast_length G hG _ g hg
  · intro g hg c hc
    rw [encode] at hg
    have hmem := groupify_mem_subset G _ g hg c hc
    rcases List.mem_map.mp hmem with ⟨ch, hch, rfl⟩
    have hbytes : ∀ b ∈ ch, b < 256 :=
      fun b hbc => hb b (chunksFrom_mem_subset L d ch hch b hbc)
    exact ⟨ch, cunescape_cescape ch hbytes, chunksFrom_mem_length_le L d ch hch⟩

/-- Witness for C4 at the concrete input `d = [1, 2, 3, 4, 5]`, `L = 2`,
`G = 2`. -/
theorem c4_chunk_and_group_bounds_witness :
    (1 ≤ 2 ∧ (∀ b ∈ [1, 2, 3, 4, 5], b < 256)) ∧
      ((∀ g ∈ encode [1, 2, 3, 4, 5] 2 2, g.length ≤ 2) ∧
        (∀ g ∈ (encode [1, 2, 3, 4, 5] 2 2).dropLast, g.length = 2) ∧
        (∀ g ∈ encode [1, 2, 3, 4, 5] 2 2, ∀ c ∈ g,
          ∃ u, cunescape c = some u ∧ u.length ≤ 2) ∧
        (∀ c ∈ (chunksFrom [1, 2, 3, 4, 5] 2).dropLast, c.length = 2)) :=
  ⟨⟨by decide, by decide⟩,
    c4_chunk_and_group_bounds [1, 2, 3, 4, 5] 2 2 (by decide) (by decide) (by decide)⟩

/-- Claim C5: when the chunk count exceeds `G`, the encoder emits exactly
`⌈totalChunks / G⌉` groups (written `(totalChunks + G - 1) / G` in natural
division), and every group except the last decodes to exactly `L * G` input
bytes, so every group boundary sits at a multiple of `L * G` input bytes
except the last group's end. A new group starts exactly when `G` chunks have
been placed: see also `groupBoundary_iff` for the source's byte-offset
formulation of the boundary condition. -/
theorem c5_group_count_and_alignment (d : List Nat) (L G : Nat) (hL : 1 ≤ L)
    (hG : 1 ≤ G) (hb : ∀ b ∈ d, b < 256)
    (hcount : G < (chunksFrom d L).length) :
    (encode d L G).length = ((chunksFrom d L).length + G - 1) / G ∧
      ∀ g ∈ (encode d L G).dropLast,
        ∃ u, decodeGroup g = some u ∧ u.length = L * G := by
  refine ⟨?_, encode_dropLast_bytes L G hL hG d hb⟩
  rw [encode, groupify_length G hG, List.length_map]

/-- Witness for C5 at the concrete input `d = [1, 2, 3]`, `L = 1`, `G = 1`
(three chunks, so the chunk count exceeds `G`). -/
theorem c5_group_count_and_alignment_witness :
    (1 ≤ 1 ∧ (∀ b ∈ [1, 2, 3], b < 256) ∧ 1 < (chunksFrom [1, 2, 3] 1).length) ∧
      ((encode [1, 2, 3] 1 1).length = ((chunksFrom [1, 2, 3] 1).length + 1 - 1) / 1 ∧
        ∀ g ∈ (encode [1, 2, 3] 1 1).dropLast,
          ∃ u, decodeGroup g = some u ∧ u.length = 1 * 1) := by
  have hcount : 1 < (chunksFrom [1, 2, 3] 1).length := by
    rw [chunksFrom_length 1 (by decide) [1, 2, 3]]
    decide
  exact ⟨⟨by decide, by decide, hcount⟩,
    c5_group_count_and_alignment [1, 2, 3] 1 1 (by decide) (by decide) (by decide)
      hcount⟩

/-- Claim C6: the emitted reconstruction call references the resolved full
names of the dependencies in exactly the dependency list's left-to-right
order, one `.getDescriptor()` line per dependency entry — a `List.map` over
the dependency list, hence never reordered and never deduplicated. -/
theorem c6_dependency_order (deps : List DepInfo) :
    reconstructionCall true deps =
      "descriptor = com.google.protobuf.Descriptors.FileDescriptor\n  .internalBuildGeneratedFileFrom(descriptorData,\n" ::
        "    new com.google.protobuf.Descriptors.FileDescriptor[] \x7b\n" ::
        (deps.map (fun dep => "      " ++ fullName dep ++ ".getDescriptor(),\n") ++
          ["    \x7d);\n"]) := by
  rw [reconstructionCall, depLoop_collect]
  simp

/-- Claim C7: with the restricted (non-opensource-runtime) configuration the
reconstruction call consists of the header and the closing `});` only — zero
dependency-descriptor arguments, no matter how many dependencies the file
declares. -/
theorem c7_restricted_mode_omission (deps : List DepInfo) :
    reconstructionCall false deps =
      ["descriptor = com.google.protobuf.Descriptors.FileDescriptor\n  .internalBuildGeneratedFileFrom(descriptorData,\n",
        "    \x7d);\n"] := by
  rw [reconstructionCall]
  simp

/-- Claim C9: when `HasDescriptorMethods(file_, options_.enforce_lite)` is
false (lite mode) `Generate` performs no output at all: no stream is opened,
nothing is printed, and both caller-owned vectors are left unchanged — the
whole function body sits inside the guard. -/
theorem c9_lite_mode_no_output (annotateCode opensourceRuntime : Bool)
    (packageDir classname sourceName javaPackage versionString : String)
    (annotationDecl descriptorBody versionValidator : List String)
    (st : GenOutputs) :
    generate false annotateCode opensourceRuntime packageDir classname
      sourceName javaPackage versionString annotationDecl descriptorBody
      versionValidator st = st := by
  rw [generate]
  simp

/-- Claim C10: the fully-qualified holder-type identifier for a dependency is
the descriptor class name alone when the resolved package is empty, and
otherwise the package, a single dot, and the class name in that order. -/
theorem c10_dependency_full_name (dep : DepInfo) :
    (dep.package = "" → fullName dep = dep.classname) ∧
      (dep.package ≠ "" → fullName dep = dep.package ++ "." ++ dep.classname) := by
  constructor
  · intro h
    rw [fullName, if_pos h]
  · intro h
    rw [fullName, if_neg h]

/-- Witness for C10 at one dependency with an empty package and one with a
non-empty package. -/
theorem c10_dependency_full_name_witness :
    fullName ⟨"a.proto", "", "AProto"⟩ = "AProto" ∧
      fullName ⟨"b.proto", "com.x", "BProto"⟩ = "com.x.BProto" := by
  constructor
  · exact (c10_dependency_full_name ⟨"a.proto", "", "AProto"⟩).1 rfl
  · exact (c10_dependency_full_name ⟨"b.proto", "com.x", "BProto"⟩).2 (by decide)

/-- Claim C8: for every byte string containing the quote byte 0x22, the
escaped text contains no unescaped quote (the literal-grammar scanner finds no
early terminator), unescaping recovers the whole string — hence the 0x22 at
its original position — and the escaping is reversible for every single byte
value 0–255, control characters and the escape character included. -/
theorem c8_quote_safety (s : List Nat) (hs : ∀ b ∈ s, b < 256) (hq : 34 ∈ s) :
    literalScan (cescape s) = false ∧ cunescape (cescape s) = some s ∧
      ∀ b : Nat, b < 256 → cunescape (cescape [b]) = some [b] := by
  refine ⟨literalScan_cescape s hs, cunescape_cescape s hs, fun b hb => ?_⟩
  exact cunescape_cescape [b] (by simpa using hb)

/-- Witness for C8 at the concrete input `[65, 34, 66]` (a quote byte between
two letters). -/
theorem c8_quote_safety_witness :
    ((∀ b ∈ [65, 34, 66], b < 256) ∧ 34 ∈ [65, 34, 66]) ∧
      (literalScan (cescape [65, 34, 66]) = false ∧
        cunescape (cescape [65, 34, 66]) = some [65, 34, 66] ∧
        ∀ b : Nat, b < 256 → cunescape (cescape [b]) = some [b]) :=
  ⟨⟨by decide, by decide⟩, c8_quote_safety [65, 34, 66] (by decide) (by decide)⟩

end SharedCodeGen
